import Mathlib

/-!
Shallow embedding of `src/string_compress.py`: a bottom-up enumerative
synthesizer for a regex-like string DSL with terminals, numeric repetition
and grouping.  Python strings are modelled as `List Char`; the `StringTree`
namedtuple (fields `content`, `name`, `child`, with `name` one of
`'terminal' | 'repeat' | 'group'`) is modelled as a closed tagged union,
each variant carrying exactly the payload the corresponding `name` uses.
The unbounded `while True` search loop is modelled with explicit fuel:
`none` means the loop has not returned within the given number of rounds.
-/

/-- The Program Tree of the DSL (`StringTree` in the source).  `terminal`
nodes carry a symbol and no child; `repeat` nodes carry a repetition count
and one child; `group` nodes carry a symbol and one child. -/
inductive StringTree where
  | terminal (content : Char)
  | «repeat» (content : Nat) (child : StringTree)
  | group (content : Char) (child : StringTree)
deriving DecidableEq, Repr

/-- The configuration surface of `StringLanguage`: the terminal alphabet and
the repetition counts, as set on the instance by `__init__`. -/
structure StringLanguage where
  terminals : List Char
  nums : List Nat
deriving Repr

/-- `StringLanguage.__init__`: the fixed configuration `terminals = 'abc'`,
`nums = [2, 3, 4]`. -/
def StringLanguage.init : StringLanguage :=
  { terminals := ['a', 'b', 'c'], nums := [2, 3, 4] }

/-- `StringLanguage.repeat`: one `repeat` node per repetition count, in
count order. -/
def StringLanguage.«repeat» (L : StringLanguage) (expr : StringTree) : List StringTree :=
  L.nums.map fun num => StringTree.«repeat» num expr

/-- `StringLanguage.group`: one `group` node per alphabet symbol, in
alphabet order. -/
def StringLanguage.group (L : StringLanguage) (expr : StringTree) : List StringTree :=
  L.terminals.map fun term => StringTree.group term expr

/-- `self.rules = [self.repeat, self.group]` from `__init__`: the rule list
applied by `grow`, in this order. -/
def StringLanguage.rules (L : StringLanguage) : List (StringTree → List StringTree) :=
  [L.«repeat», L.group]

/-- `StringLanguage.initial`: one `terminal` node per alphabet symbol. -/
def StringLanguage.initial (L : StringLanguage) : List StringTree :=
  L.terminals.map fun term => StringTree.terminal term

/-- `StringLanguage.grow`: for each program, yield the program itself, then
the expansions of every rule in rule order. -/
def StringLanguage.grow (L : StringLanguage) (programs : List StringTree) : List StringTree :=
  programs.flatMap fun program => program :: L.rules.flatMap fun rule => rule program

/-- `StringLanguage.interpret`: evaluation to the denoted string.
`terminal` denotes its symbol; `repeat` denotes the child's string repeated
`content` times (Python `int * str`); `group` denotes the symbol prepended
to the child's string (Python `str + str`). -/
def StringLanguage.interpret (L : StringLanguage) : StringTree → List Char
  | .terminal content => [content]
  | .«repeat» content child => (List.replicate content (L.interpret child)).flatten
  | .group content child => content :: L.interpret child

/-- `StringLanguage.render`: surface syntax.  `terminal` renders as its
symbol; `repeat` as the decimal count followed by the child's rendering in
parentheses; `group` as the symbol followed by the child's rendering in
parentheses (same format as `repeat`). -/
def StringLanguage.render (L : StringLanguage) : StringTree → List Char
  | .terminal content => [content]
  | .«repeat» content child => (Nat.repr content).data ++ '(' :: L.render child ++ [')']
  | .group content child => content :: '(' :: L.render child ++ [')']

/-- The loop body of `filter_observationally_equivalent`, with the `seen`
set of already-observed output strings made explicit (modelled as a list
queried by membership). -/
def filterGo (L : StringLanguage) : List StringTree → List (List Char) → List StringTree
  | [], _ => []
  | program :: programs, seen =>
    if L.interpret program ∈ seen then
      filterGo L programs seen
    else
      program :: filterGo L programs (L.interpret program :: seen)

/-- `filter_observationally_equivalent(language, programs, inputs)`: a fresh
`seen = set()` per invocation; keep a program iff its interpreted output is
not yet in `seen`, then record the output.  The `inputs` argument is not
used by the body. -/
def filter_observationally_equivalent {α : Type} (language : StringLanguage)
    (programs : List StringTree) (inputs : α) : List StringTree :=
  filterGo language programs []

/-- The `for program in programs: if interpret(program) == outputs: return`
scan at the end of each round of `bottom_up_explicit`: the first program of
the frontier whose interpreted output equals the target, if any. -/
def checkFrontier (L : StringLanguage) (outputs : List Char) : List StringTree → Option StringTree
  | [] => none
  | program :: programs =>
    if L.interpret program = outputs then some program
    else checkFrontier L outputs programs

/-- One round of the `while True` loop of `bottom_up_explicit`:
`programs.extend(list(grow(programs)))` followed by re-filtering the whole
accumulated frontier. -/
def bottomUpStep {α : Type} (L : StringLanguage) (inputs : α)
    (programs : List StringTree) : List StringTree :=
  filter_observationally_equivalent L (programs ++ L.grow programs) inputs

/-- The `while True` loop of `bottom_up_explicit`, with explicit fuel: each
unit of fuel is one round (expand, collapse, check); `none` means no round
within the fuel returned. -/
def bottomUpLoop {α : Type} (L : StringLanguage) (inputs : α) (outputs : List Char) :
    Nat → List StringTree → Option StringTree
  | 0, _ => none
  | fuel + 1, programs =>
    match checkFrontier L outputs (bottomUpStep L inputs programs) with
    | some program => some program
    | none => bottomUpLoop L inputs outputs fuel (bottomUpStep L inputs programs)

/-- `bottom_up_explicit(language, inputs, outputs)`: start from the initial
frontier and loop.  `fuel` bounds the number of rounds of the source's
unbounded loop. -/
def bottom_up_explicit {α : Type} (language : StringLanguage) (inputs : α)
    (outputs : List Char) (fuel : Nat) : Option StringTree :=
  bottomUpLoop language inputs outputs fuel language.initial

/-- The frontier held by `bottom_up_explicit` after `k` completed
expand-and-collapse rounds (`k = 0` is the initial frontier). -/
def frontierAfter {α : Type} (L : StringLanguage) (inputs : α) : Nat → List StringTree
  | 0 => L.initial
  | k + 1 => bottomUpStep L inputs (frontierAfter L inputs k)

/-- Instrumented variant of the loop that also reports how many Generator
(`grow`) rounds were performed before the returned match was found; `k`
counts the rounds already performed. -/
def bottomUpLoopRounds {α : Type} (L : StringLanguage) (inputs : α) (outputs : List Char) :
    Nat → List StringTree → Nat → Option (StringTree × Nat)
  | 0, _, _ => none
  | fuel + 1, programs, k =>
    match checkFrontier L outputs (bottomUpStep L inputs programs) with
    | some program => some (program, k + 1)
    | none => bottomUpLoopRounds L inputs outputs fuel (bottomUpStep L inputs programs) (k + 1)

/-- `bottom_up_explicit` instrumented with the number of `grow` rounds
performed before its return. -/
def bottom_up_rounds {α : Type} (language : StringLanguage) (inputs : α)
    (outputs : List Char) (fuel : Nat) : Option (StringTree × Nat) :=
  bottomUpLoopRounds language inputs outputs fuel language.initial 0

/-! ### Helper lemmas -/

lemma bottomUpStep_inputs {α β : Type} (L : StringLanguage) (i1 : α) (i2 : β)
    (ps : List StringTree) : bottomUpStep L i1 ps = bottomUpStep L i2 ps := rfl

lemma bottomUpLoop_inputs {α β : Type} (L : StringLanguage) (i1 : α) (i2 : β)
    (out : List Char) : ∀ (fuel : Nat) (ps : List StringTree),
    bottomUpLoop L i1 out fuel ps = bottomUpLoop L i2 out fuel ps := by
  intro fuel
  induction fuel with
  | zero => intro ps; rfl
  | succ f ih =>
    intro ps
    show (match checkFrontier L out (bottomUpStep L i1 ps) with
      | some program => some program
      | none => bottomUpLoop L i1 out f (bottomUpStep L i1 ps)) = _
    rw [bottomUpStep_inputs L i1 i2, ih]
    rfl

lemma bottomUpLoopRounds_inputs {α β : Type} (L : StringLanguage) (i1 : α) (i2 : β)
    (out : List Char) : ∀ (fuel : Nat) (ps : List StringTree) (k : Nat),
    bottomUpLoopRounds L i1 out fuel ps k = bottomUpLoopRounds L i2 out fuel ps k := by
  intro fuel
  induction fuel with
  | zero => intro ps k; rfl
  | succ f ih =>
    intro ps k
    show (match checkFrontier L out (bottomUpStep L i1 ps) with
      | some program => some (program, k + 1)
      | none => bottomUpLoopRounds L i1 out f (bottomUpStep L i1 ps) (k + 1)) = _
    rw [bottomUpStep_inputs L i1 i2, ih]
    rfl

lemma bottomUpLoop_mono {α : Type} (L : StringLanguage) (i : α) (out : List Char)
    (p : StringTree) : ∀ (fuel k : Nat) (ps : List StringTree),
    bottomUpLoop L i out fuel ps = some p →
    bottomUpLoop L i out (fuel + k) ps = some p := by
  intro fuel
  induction fuel with
  | zero => intro k ps h; exact absurd h (by simp [bottomUpLoop])
  | succ f ih =>
    intro k ps h
    rw [Nat.succ_add]
    rw [show bottomUpLoop L i out (f + 1) ps = (match checkFrontier L out (bottomUpStep L i ps) with
      | some program => some program
      | none => bottomUpLoop L i out f (bottomUpStep L i ps)) from rfl] at h
    show (match checkFrontier L out (bottomUpStep L i ps) with
      | some program => some program
      | none => bottomUpLoop L i out (f + k) (bottomUpStep L i ps)) = some p
    cases hc : checkFrontier L out (bottomUpStep L i ps) with
    | some q => rw [hc] at h; simpa [hc] using h
    | none => rw [hc] at h; simpa [hc] using ih k _ h

lemma bottomUpLoopRounds_mono {α : Type} (L : StringLanguage) (i : α) (out : List Char)
    (r : StringTree × Nat) : ∀ (fuel j k : Nat) (ps : List StringTree),
    bottomUpLoopRounds L i out fuel ps k = some r →
    bottomUpLoopRounds L i out (fuel + j) ps k = some r := by
  intro fuel
  induction fuel with
  | zero => intro j k ps h; exact absurd h (by simp [bottomUpLoopRounds])
  | succ f ih =>
    intro j k ps h
    rw [Nat.succ_add]
    rw [show bottomUpLoopRounds L i out (f + 1) ps k = (match checkFrontier L out (bottomUpStep L i ps) with
      | some program => some (program, k + 1)
      | none => bottomUpLoopRounds L i out f (bottomUpStep L i ps) (k + 1)) from rfl] at h
    show (match checkFrontier L out (bottomUpStep L i ps) with
      | some program => some (program, k + 1)
      | none => bottomUpLoopRounds L i out (f + j) (bottomUpStep L i ps) (k + 1)) = some r
    cases hc : checkFrontier L out (bottomUpStep L i ps) with
    | some q => rw [hc] at h; simpa [hc] using h
    | none => rw [hc] at h; simpa [hc] using ih j _ _ h

/-! ### Claim theorems: interpreter, renderer, generator, inputs argument -/

/-- C3: `interpret` satisfies the case-by-case semantics: a `terminal` node
evaluates to its content as a one-character string; a `repeat` node with
count `n` and child `c` evaluates to `interpret c` concatenated with itself
`n` times, so its length is `n * (interpret c).length`; a `group` node with
symbol `s` and child `c` evaluates to `s` followed by `interpret c`, so its
length is `1 + (interpret c).length`. -/
theorem interpret_semantics (L : StringLanguage) (c s : Char) (n : Nat) (child : StringTree) :
    L.interpret (.terminal c) = [c]
    ∧ (L.interpret (.terminal c)).length = 1
    ∧ L.interpret (.«repeat» n child) = (List.replicate n (L.interpret child)).flatten
    ∧ (L.interpret (.«repeat» n child)).length = n * (L.interpret child).length
    ∧ L.interpret (.group s child) = s :: L.interpret child
    ∧ (L.interpret (.group s child)).length = 1 + (L.interpret child).length := by
  refine ⟨rfl, rfl, rfl, ?_, rfl, ?_⟩
  · show ((List.replicate n (L.interpret child)).flatten).length = _
    simp [List.length_flatten, List.map_replicate, List.sum_replicate, smul_eq_mul]
  · simp [StringLanguage.interpret, Nat.add_comm]

/-- C7: `render` produces the identical surface format
`"<content>(<render child>)"` for both `repeat` and `group` nodes, and
renders a `terminal` node as its content verbatim; consequently the surface
syntax does not distinguish the two composite kinds (witnessed by two
distinct trees of different kinds with equal renderings). -/
theorem render_format (L : StringLanguage) (c s : Char) (n : Nat) (child : StringTree) :
    L.render (.terminal c) = [c]
    ∧ L.render (.«repeat» n child) = (Nat.repr n).data ++ ['('] ++ L.render child ++ [')']
    ∧ L.render (.group s child) = [s] ++ ['('] ++ L.render child ++ [')']
    ∧ StringLanguage.init.render (.«repeat» 2 (.terminal 'a'))
        = StringLanguage.init.render (.group '2' (.terminal 'a'))
    ∧ StringTree.«repeat» 2 (StringTree.terminal 'a') ≠ StringTree.group '2' (StringTree.terminal 'a') :=
  ⟨rfl, by simp [StringLanguage.render], by simp [StringLanguage.render], by decide, by decide⟩

/-- C10: the `inputs` parameter is ignored by both public entry points:
for a fixed program sequence, `filter_observationally_equivalent` returns
the same output for any two values (of any two types) of `inputs`, and for
a fixed target and fuel, `bottom_up_explicit` returns the same result for
any two values of `inputs`. -/
theorem inputs_ignored {α β : Type} (i1 : α) (i2 : β) (L : StringLanguage)
    (programs : List StringTree) (outputs : List Char) (fuel : Nat) :
    filter_observationally_equivalent L programs i1
      = filter_observationally_equivalent L programs i2
    ∧ bottom_up_explicit L i1 outputs fuel = bottom_up_explicit L i2 outputs fuel :=
  ⟨rfl, bottomUpLoop_inputs L i1 i2 outputs fuel L.initial⟩

/-- C1: with the fixed configuration (`terminals = 'abc'`, `nums = [2,3,4]`),
the search terminates on target `"aaa"` (any fuel ≥ 1 returns) with a
program rendering to `"3(a)"`, and terminates on target `"ababab"` (any
fuel ≥ 2 returns) with a program rendering to `"3(a(b))"`. -/
theorem bottom_up_explicit_scenarios {α : Type} (inputs : α) (n : Nat) :
    (bottom_up_explicit StringLanguage.init inputs ['a', 'a', 'a'] (1 + n)
        = some (StringTree.«repeat» 3 (StringTree.terminal 'a'))
      ∧ StringLanguage.init.render (StringTree.«repeat» 3 (StringTree.terminal 'a'))
        = ['3', '(', 'a', ')'])
    ∧ (bottom_up_explicit StringLanguage.init inputs ['a', 'b', 'a', 'b', 'a', 'b'] (2 + n)
        = some (StringTree.«repeat» 3 (StringTree.group 'a' (StringTree.terminal 'b')))
      ∧ StringLanguage.init.render (StringTree.«repeat» 3 (StringTree.group 'a' (StringTree.terminal 'b')))
        = ['3', '(', 'a', '(', 'b', ')', ')']) := by
  refine ⟨⟨?_, by decide⟩, ⟨?_, by decide⟩⟩
  · have h1 : bottomUpLoop StringLanguage.init () ['a', 'a', 'a'] 1 StringLanguage.init.initial
        = some (StringTree.«repeat» 3 (StringTree.terminal 'a')) := by decide
    exact (bottomUpLoop_inputs StringLanguage.init inputs () ['a', 'a', 'a'] (1 + n)
      StringLanguage.init.initial).trans
      (bottomUpLoop_mono StringLanguage.init () ['a', 'a', 'a'] _ 1 n _ h1)
  · have h2 : bottomUpLoop StringLanguage.init () ['a', 'b', 'a', 'b', 'a', 'b'] 2
        StringLanguage.init.initial
        = some (StringTree.«repeat» 3 (StringTree.group 'a' (StringTree.terminal 'b'))) := by decide
    exact (bottomUpLoop_inputs StringLanguage.init inputs () ['a', 'b', 'a', 'b', 'a', 'b'] (2 + n)
      StringLanguage.init.initial).trans
      (bottomUpLoop_mono StringLanguage.init () ['a', 'b', 'a', 'b', 'a', 'b'] _ 2 n _ h2)

/-! ### Equivalence-filter lemmas -/

lemma mem_of_mem_filterGo (L : StringLanguage) :
    ∀ (ps : List StringTree) (seen : List (List Char)) (q : StringTree),
    q ∈ filterGo L ps seen → q ∈ ps := by
  intro ps
  induction ps with
  | nil => intro seen q h; simp [filterGo] at h
  | cons p ps ih =>
    intro seen q h
    by_cases hp : L.interpret p ∈ seen
    · simp only [filterGo, if_pos hp] at h
      exact List.mem_cons_of_mem p (ih _ _ h)
    · simp only [filterGo, if_neg hp, List.mem_cons] at h
      rcases h with h | h
      · simp [h]
      · exact List.mem_cons_of_mem p (ih _ _ h)

lemma interpret_not_mem_seen (L : StringLanguage) :
    ∀ (ps : List StringTree) (seen : List (List Char)) (q : StringTree),
    q ∈ filterGo L ps seen → L.interpret q ∉ seen := by
  intro ps
  induction ps with
  | nil => intro seen q h; simp [filterGo] at h
  | cons p ps ih =>
    intro seen q h
    by_cases hp : L.interpret p ∈ seen
    · simp only [filterGo, if_pos hp] at h
      exact ih _ _ h
    · simp only [filterGo, if_neg hp, List.mem_cons] at h
      rcases h with h | h
      · subst h; exact hp
      · intro hmem
        exact (ih _ _ h) (List.mem_cons_of_mem _ hmem)

lemma mem_filterGo_iff (L : StringLanguage) :
    ∀ (ps : List StringTree) (seen : List (List Char)) (q : StringTree),
    q ∈ filterGo L ps seen ↔
      ∃ l1 l2, ps = l1 ++ q :: l2 ∧ L.interpret q ∉ seen
        ∧ ∀ r ∈ l1, L.interpret r ≠ L.interpret q := by
  intro ps
  induction ps with
  | nil =>
    intro seen q
    constructor
    · intro h; simp [filterGo] at h
    · rintro ⟨l1, l2, h, -, -⟩
      exact absurd h.symm (by simp)
  | cons p ps ih =>
    intro seen q
    by_cases hp : L.interpret p ∈ seen
    · rw [show filterGo L (p :: ps) seen = filterGo L ps seen from by
        simp only [filterGo, if_pos hp]]
      rw [ih]
      constructor
      · rintro ⟨l1, l2, rfl, hnq, hl1⟩
        refine ⟨p :: l1, l2, rfl, hnq, ?_⟩
        intro r hr
        rcases List.mem_cons.mp hr with rfl | hr
        · intro he; exact hnq (he ▸ hp)
        · exact hl1 r hr
      · rintro ⟨l1, l2, heq, hnq, hl1⟩
        cases l1 with
        | nil =>
          simp only [List.nil_append, List.cons.injEq] at heq
          obtain ⟨rfl, rfl⟩ := heq
          exact absurd hp hnq
        | cons a l1 =>
          simp only [List.cons_append, List.cons.injEq] at heq
          obtain ⟨rfl, rfl⟩ := heq
          exact ⟨l1, l2, rfl, hnq, fun r hr => hl1 r (List.mem_cons_of_mem _ hr)⟩
    · rw [show filterGo L (p :: ps) seen = p :: filterGo L ps (L.interpret p :: seen) from by
        simp only [filterGo, if_neg hp]]
      constructor
      · intro h
        rcases List.mem_cons.mp h with rfl | h
        · exact ⟨[], ps, rfl, hp, by simp⟩
        · obtain ⟨l1, l2, rfl, hnq, hl1⟩ := (ih _ _).mp h
          refine ⟨p :: l1, l2, rfl, ?_, ?_⟩
          · intro hs; exact hnq (List.mem_cons_of_mem _ hs)
          · intro r hr
            rcases List.mem_cons.mp hr with rfl | hr
            · intro he; exact hnq (by simp [he])
            · exact hl1 r hr
      · rintro ⟨l1, l2, heq, hnq, hl1⟩
        cases l1 with
        | nil =>
          simp only [List.nil_append, List.cons.injEq] at heq
          obtain ⟨rfl, rfl⟩ := heq
          exact List.mem_cons_self _ _
        | cons a l1 =>
          simp only [List.cons_append, List.cons.injEq] at heq
          obtain ⟨rfl, rfl⟩ := heq
          refine List.mem_cons_of_mem _ ((ih _ _).mpr ⟨l1, l2, rfl, ?_,
            fun r hr => hl1 r (List.mem_cons_of_mem _ hr)⟩)
          intro hmem
          rcases List.mem_cons.mp hmem with he | hs
          · exact hl1 p (List.mem_cons_self _ _) he.symm
          · exact hnq hs

lemma filterGo_pairwise (L : StringLanguage) :
    ∀ (ps : List StringTree) (seen : List (List Char)),
    (filterGo L ps seen).Pairwise fun a b => L.interpret a ≠ L.interpret b := by
  intro ps
  induction ps with
  | nil => intro seen; simp [filterGo]
  | cons p ps ih =>
    intro seen
    by_cases hp : L.interpret p ∈ seen
    · simpa only [filterGo, if_pos hp] using ih seen
    · rw [show filterGo L (p :: ps) seen = p :: filterGo L ps (L.interpret p :: seen) from by
        simp only [filterGo, if_neg hp]]
      refine List.Pairwise.cons ?_ (ih _)
      intro q hq he
      exact interpret_not_mem_seen L ps _ q hq (by simp [← he])

lemma filterGo_of_pairwise (L : StringLanguage) :
    ∀ (ps : List StringTree) (seen : List (List Char)),
    (ps.Pairwise fun a b => L.interpret a ≠ L.interpret b) →
    (∀ q ∈ ps, L.interpret q ∉ seen) →
    filterGo L ps seen = ps := by
  intro ps
  induction ps with
  | nil => intro seen _ _; rfl
  | cons p ps ih =>
    intro seen hpw hns
    have hp : L.interpret p ∉ seen := hns p (List.mem_cons_self _ _)
    obtain ⟨h1, h2⟩ := List.pairwise_cons.mp hpw
    rw [show filterGo L (p :: ps) seen = p :: filterGo L ps (L.interpret p :: seen) from by
      simp only [filterGo, if_neg hp]]
    rw [ih _ h2]
    intro q hq hmem
    rcases List.mem_cons.mp hmem with he | hs
    · exact h1 q hq he.symm
    · exact hns q (List.mem_cons_of_mem _ hq) hs

/-! ### Claim theorems: the Equivalence Filter -/

/-- C2 (amended): the filter keeps a program (as a member of the result)
iff it occurs at a position where no earlier element of the sequence has
the same interpreted output; consequently the result has pairwise-distinct
outputs (at most one survivor per output class, namely the first
occurrence), and re-filtering a filtered sequence with the fresh per-call
`seen` state leaves it unchanged. -/
theorem filter_observationally_equivalent_spec {α : Type} (inputs : α) (L : StringLanguage)
    (programs : List StringTree) (q : StringTree) :
    (q ∈ filter_observationally_equivalent L programs inputs ↔
      ∃ l1 l2, programs = l1 ++ q :: l2 ∧ ∀ r ∈ l1, L.interpret r ≠ L.interpret q)
    ∧ (filter_observationally_equivalent L programs inputs).Pairwise
        (fun a b => L.interpret a ≠ L.interpret b)
    ∧ filter_observationally_equivalent L
        (filter_observationally_equivalent L programs inputs) inputs
      = filter_observationally_equivalent L programs inputs := by
  refine ⟨?_, filterGo_pairwise L programs [], ?_⟩
  · simpa using mem_filterGo_iff L programs [] q
  · exact filterGo_of_pairwise L _ [] (filterGo_pairwise L programs []) (by simp)

/-- C2 counterexample: three pairwise-distinct trees that all interpret to
`"aaaa"`.  For the pair `(t2, t3) = (2(2(a)), a(3(a)))` the claim predicts
that exactly one of the two survives filtering, but neither survives: only
`t1 = 4(a)`, the first occurrence of the output, does. -/
theorem filter_pair_counterexample :
    StringLanguage.init.interpret
        (StringTree.«repeat» 2 (StringTree.«repeat» 2 (StringTree.terminal 'a')))
      = StringLanguage.init.interpret
        (StringTree.group 'a' (StringTree.«repeat» 3 (StringTree.terminal 'a')))
    ∧ StringTree.«repeat» 2 (StringTree.«repeat» 2 (StringTree.terminal 'a'))
      ≠ StringTree.group 'a' (StringTree.«repeat» 3 (StringTree.terminal 'a'))
    ∧ filter_observationally_equivalent StringLanguage.init
        [StringTree.«repeat» 4 (StringTree.terminal 'a'),
         StringTree.«repeat» 2 (StringTree.«repeat» 2 (StringTree.terminal 'a')),
         StringTree.group 'a' (StringTree.«repeat» 3 (StringTree.terminal 'a'))] ()
      = [StringTree.«repeat» 4 (StringTree.terminal 'a')]
    ∧ ¬ ((StringTree.«repeat» 2 (StringTree.«repeat» 2 (StringTree.terminal 'a'))
          ∈ filter_observationally_equivalent StringLanguage.init
            [StringTree.«repeat» 4 (StringTree.terminal 'a'),
             StringTree.«repeat» 2 (StringTree.«repeat» 2 (StringTree.terminal 'a')),
             StringTree.group 'a' (StringTree.«repeat» 3 (StringTree.terminal 'a'))] ())
        ∨ (StringTree.group 'a' (StringTree.«repeat» 3 (StringTree.terminal 'a'))
          ∈ filter_observationally_equivalent StringLanguage.init
            [StringTree.«repeat» 4 (StringTree.terminal 'a'),
             StringTree.«repeat» 2 (StringTree.«repeat» 2 (StringTree.terminal 'a')),
             StringTree.group 'a' (StringTree.«repeat» 3 (StringTree.terminal 'a'))] ())) := by
  decide

/-! ### Frontier-scan lemmas -/

lemma checkFrontier_some (L : StringLanguage) (out : List Char) :
    ∀ (ps : List StringTree) (p : StringTree),
    checkFrontier L out ps = some p →
    L.interpret p = out ∧ ∃ l1 l2, ps = l1 ++ p :: l2 ∧ ∀ q ∈ l1, L.interpret q ≠ out := by
  intro ps
  induction ps with
  | nil => intro p h; simp [checkFrontier] at h
  | cons r ps ih =>
    intro p h
    by_cases hr : L.interpret r = out
    · simp only [checkFrontier, if_pos hr, Option.some.injEq] at h
      subst h
      exact ⟨hr, [], ps, rfl, by simp⟩
    · simp only [checkFrontier, if_neg hr] at h
      obtain ⟨h1, l1, l2, rfl, h2⟩ := ih p h
      refine ⟨h1, r :: l1, l2, rfl, ?_⟩
      intro q hq
      rcases List.mem_cons.mp hq with rfl | hq
      · exact hr
      · exact h2 q hq

lemma checkFrontier_none (L : StringLanguage) (out : List Char) :
    ∀ (ps : List StringTree), (∀ p ∈ ps, L.interpret p ≠ out) →
    checkFrontier L out ps = none := by
  intro ps
  induction ps with
  | nil => intro _; rfl
  | cons r ps ih =>
    intro h
    simp only [checkFrontier, if_neg (h r (List.mem_cons_self _ _))]
    exact ih fun p hp => h p (List.mem_cons_of_mem _ hp)

lemma bottomUpLoop_found {α : Type} (L : StringLanguage) (i : α) (out : List Char)
    (p : StringTree) : ∀ (fuel m : Nat),
    bottomUpLoop L i out fuel (frontierAfter L i m) = some p →
    ∃ k, checkFrontier L out (frontierAfter L i (k + 1)) = some p := by
  intro fuel
  induction fuel with
  | zero => intro m h; exact absurd h (by simp [bottomUpLoop])
  | succ f ih =>
    intro m h
    rw [show bottomUpLoop L i out (f + 1) (frontierAfter L i m)
      = (match checkFrontier L out (bottomUpStep L i (frontierAfter L i m)) with
        | some program => some program
        | none => bottomUpLoop L i out f (bottomUpStep L i (frontierAfter L i m))) from rfl] at h
    rw [show bottomUpStep L i (frontierAfter L i m) = frontierAfter L i (m + 1) from rfl] at h
    cases hc : checkFrontier L out (frontierAfter L i (m + 1)) with
    | some q =>
      rw [hc] at h
      refine ⟨m, ?_⟩
      rw [hc]
      simpa using h
    | none =>
      rw [hc] at h
      exact ih (m + 1) h

/-- C5: whenever the Search Driver returns a program, that program's
interpreted output equals the target, and it is the lowest-order match:
the frontier it was found in (the collapsed frontier of some round) splits
as `l1 ++ p :: l2` where no program of `l1` interprets to the target. -/
theorem bottom_up_explicit_sound {α : Type} (L : StringLanguage) (inputs : α)
    (outputs : List Char) (fuel : Nat) (p : StringTree)
    (h : bottom_up_explicit L inputs outputs fuel = some p) :
    L.interpret p = outputs
    ∧ ∃ k l1 l2, frontierAfter L inputs (k + 1) = l1 ++ p :: l2
        ∧ ∀ q ∈ l1, L.interpret q ≠ outputs := by
  obtain ⟨k, hk⟩ := bottomUpLoop_found L inputs outputs p fuel 0 h
  obtain ⟨h1, l1, l2, heq, h2⟩ := checkFrontier_some L outputs _ p hk
  exact ⟨h1, k, l1, l2, heq, h2⟩

/-- C5 witness: concrete run at target `"b"`, fuel 1. -/
theorem bottom_up_explicit_sound_witness :
    StringLanguage.init.interpret (StringTree.terminal 'b') = ['b']
    ∧ ∃ k l1 l2, frontierAfter StringLanguage.init () (k + 1)
        = l1 ++ StringTree.terminal 'b' :: l2
        ∧ ∀ q ∈ l1, StringLanguage.init.interpret q ≠ ['b'] :=
  bottom_up_explicit_sound StringLanguage.init () ['b'] 1 (StringTree.terminal 'b') (by decide)

/-! ### Alphabet invariant for unreachable targets -/

/-- Every terminal or group symbol occurring in the tree lies in the
language's alphabet.  Holds for every tree the search ever constructs. -/
def overAlphabet (L : StringLanguage) : StringTree → Prop
  | .terminal content => content ∈ L.terminals
  | .«repeat» _ child => overAlphabet L child
  | .group content child => content ∈ L.terminals ∧ overAlphabet L child

lemma interpret_chars_mem (L : StringLanguage) :
    ∀ (t : StringTree), overAlphabet L t → ∀ c ∈ L.interpret t, c ∈ L.terminals := by
  intro t
  induction t with
  | terminal content =>
    intro h c hc
    simp only [StringLanguage.interpret, List.mem_singleton] at hc
    subst hc; exact h
  | «repeat» content child ih =>
    intro h c hc
    simp only [StringLanguage.interpret, List.mem_flatten] at hc
    obtain ⟨l, hl, hcl⟩ := hc
    rw [List.eq_of_mem_replicate hl] at hcl
    exact ih h c hcl
  | group content child ih =>
    intro h c hc
    simp only [StringLanguage.interpret, List.mem_cons] at hc
    rcases hc with rfl | hc
    · exact h.1
    · exact ih h.2 c hc

lemma initial_overAlphabet (L : StringLanguage) : ∀ p ∈ L.initial, overAlphabet L p := by
  intro p hp
  obtain ⟨t, ht, rfl⟩ := List.mem_map.mp hp
  exact ht

lemma grow_overAlphabet (L : StringLanguage) (ps : List StringTree)
    (h : ∀ p ∈ ps, overAlphabet L p) : ∀ q ∈ L.grow ps, overAlphabet L q := by
  intro q hq
  obtain ⟨p, hp, hq⟩ := List.mem_flatMap.mp hq
  rcases List.mem_cons.mp hq with rfl | hq
  · exact h _ hp
  · simp only [StringLanguage.rules, List.flatMap_cons, List.flatMap_nil, List.append_nil,
      List.mem_append, StringLanguage.«repeat», StringLanguage.group, List.mem_map] at hq
    rcases hq with ⟨n, hn, rfl⟩ | ⟨t, ht, rfl⟩
    · exact h p hp
    · exact ⟨ht, h p hp⟩

lemma step_overAlphabet {α : Type} (L : StringLanguage) (i : α) (ps : List StringTree)
    (h : ∀ p ∈ ps, overAlphabet L p) : ∀ q ∈ bottomUpStep L i ps, overAlphabet L q := by
  intro q hq
  have hq1 : q ∈ filterGo L (ps ++ L.grow ps) [] := hq
  have hq2 := mem_of_mem_filterGo L (ps ++ L.grow ps) [] q hq1
  rcases List.mem_append.mp hq2 with hq2 | hq2
  · exact h q hq2
  · exact grow_overAlphabet L ps h q hq2

lemma frontierAfter_overAlphabet {α : Type} (L : StringLanguage) (i : α) :
    ∀ (k : Nat), ∀ q ∈ frontierAfter L i k, overAlphabet L q := by
  intro k
  induction k with
  | zero => exact initial_overAlphabet L
  | succ k ih => exact step_overAlphabet L i _ ih

lemma checkFrontier_unreachable {α : Type} (L : StringLanguage) (i : α) (out : List Char)
    (hc : ∃ c ∈ out, c ∉ L.terminals) (k : Nat) :
    checkFrontier L out (frontierAfter L i k) = none := by
  obtain ⟨c, hcm, hcn⟩ := hc
  refine checkFrontier_none L out _ ?_
  intro p hp he
  exact hcn (interpret_chars_mem L p (frontierAfter_overAlphabet L i k p hp) c
    (show c ∈ L.interpret p by rw [he]; exact hcm))

lemma bottomUpLoop_unreachable {α : Type} (L : StringLanguage) (i : α) (out : List Char)
    (hc : ∃ c ∈ out, c ∉ L.terminals) :
    ∀ (fuel m : Nat), bottomUpLoop L i out fuel (frontierAfter L i m) = none := by
  intro fuel
  induction fuel with
  | zero => intro m; rfl
  | succ f ih =>
    intro m
    show (match checkFrontier L out (bottomUpStep L i (frontierAfter L i m)) with
      | some program => some program
      | none => bottomUpLoop L i out f (bottomUpStep L i (frontierAfter L i m))) = none
    rw [show bottomUpStep L i (frontierAfter L i m) = frontierAfter L i (m + 1) from rfl]
    rw [checkFrontier_unreachable L i out hc (m + 1)]
    exact ih (m + 1)

/-- C6: if the target contains a character outside the alphabet, then for
every number of rounds no program of the frontier interprets to the target
(the round's check finds nothing), and `bottom_up_explicit` never returns,
whatever the fuel: the source's unbounded loop does not terminate. -/
theorem unreachable_target_never_returns {α : Type} (L : StringLanguage) (inputs : α)
    (outputs : List Char) (hc : ∃ c ∈ outputs, c ∉ L.terminals) :
    (∀ k, ∀ p ∈ frontierAfter L inputs k, L.interpret p ≠ outputs)
    ∧ (∀ k, checkFrontier L outputs (frontierAfter L inputs k) = none)
    ∧ ∀ fuel, bottom_up_explicit L inputs outputs fuel = none := by
  refine ⟨?_, checkFrontier_unreachable L inputs outputs hc, ?_⟩
  · intro k p hp he
    obtain ⟨c, hcm, hcn⟩ := hc
    exact hcn (interpret_chars_mem L p (frontierAfter_overAlphabet L inputs k p hp) c
      (show c ∈ L.interpret p by rw [he]; exact hcm))
  · intro fuel
    exact bottomUpLoop_unreachable L inputs outputs hc fuel 0

/-- C6 witness: target `"z"` against the source configuration. -/
theorem unreachable_target_never_returns_witness :
    (∀ k, ∀ p ∈ frontierAfter StringLanguage.init () k,
        StringLanguage.init.interpret p ≠ ['z'])
    ∧ (∀ k, checkFrontier StringLanguage.init ['z'] (frontierAfter StringLanguage.init () k) = none)
    ∧ ∀ fuel, bottom_up_explicit StringLanguage.init () ['z'] fuel = none :=
  unreachable_target_never_returns StringLanguage.init () ['z'] (by decide)

/-! ### Degenerate configurations and round counting -/

lemma bottomUpStep_nil {α : Type} (L : StringLanguage) (i : α) : bottomUpStep L i [] = [] := rfl

lemma bottomUpLoop_nil {α : Type} (L : StringLanguage) (i : α) (out : List Char) :
    ∀ fuel, bottomUpLoop L i out fuel [] = none := by
  intro fuel
  induction fuel with
  | zero => rfl
  | succ f ih =>
    show (match checkFrontier L out (bottomUpStep L i []) with
      | some program => some program
      | none => bottomUpLoop L i out f (bottomUpStep L i [])) = none
    rw [bottomUpStep_nil]
    exact ih

lemma bottomUpLoopRounds_fst {α : Type} (L : StringLanguage) (i : α) (out : List Char) :
    ∀ (fuel : Nat) (ps : List StringTree) (k : Nat),
    (bottomUpLoopRounds L i out fuel ps k).map Prod.fst = bottomUpLoop L i out fuel ps := by
  intro fuel
  induction fuel with
  | zero => intro ps k; rfl
  | succ f ih =>
    intro ps k
    rw [show bottomUpLoopRounds L i out (f + 1) ps k
      = (match checkFrontier L out (bottomUpStep L i ps) with
        | some program => some (program, k + 1)
        | none => bottomUpLoopRounds L i out f (bottomUpStep L i ps) (k + 1)) from rfl]
    rw [show bottomUpLoop L i out (f + 1) ps
      = (match checkFrontier L out (bottomUpStep L i ps) with
        | some program => some program
        | none => bottomUpLoop L i out f (bottomUpStep L i ps)) from rfl]
    cases hc : checkFrontier L out (bottomUpStep L i ps) with
    | some q => rfl
    | none => exact ih _ _

/-- C8 (code-bug evidence): with an empty alphabet the search does not
report a configuration error: the frontier stays empty and the loop never
returns, whatever the fuel (the source loops forever).  And with a
nonempty alphabet but an empty count set the search also reports no error:
it simply proceeds and, e.g., returns the bare terminal for target `"a"`. -/
theorem degenerate_config_no_error {α : Type} (inputs : α) (outputs : List Char)
    (fuel : Nat) (L : StringLanguage) (h : L.terminals = []) :
    bottom_up_explicit L inputs outputs fuel = none
    ∧ bottom_up_explicit { terminals := ['a', 'b', 'c'], nums := [] } inputs ['a'] (fuel + 1)
      = some (StringTree.terminal 'a') := by
  constructor
  · have hinit : L.initial = [] := by simp [StringLanguage.initial, h]
    show bottomUpLoop L inputs outputs fuel L.initial = none
    rw [hinit]
    exact bottomUpLoop_nil L inputs outputs fuel
  · have h1 : bottomUpLoop ({ terminals := ['a', 'b', 'c'], nums := [] } : StringLanguage)
        () ['a'] 1 ({ terminals := ['a', 'b', 'c'], nums := [] } : StringLanguage).initial
        = some (StringTree.terminal 'a') := by decide
    have h2 := bottomUpLoop_mono ({ terminals := ['a', 'b', 'c'], nums := [] } : StringLanguage)
      () ['a'] (StringTree.terminal 'a') 1 fuel _ h1
    rw [Nat.add_comm 1 fuel] at h2
    exact (bottomUpLoop_inputs _ inputs () ['a'] (fuel + 1) _).trans h2

/-- C8 witness: empty alphabet with the source's counts, target `"a"`,
fuel 5; and the source's alphabet with empty counts. -/
theorem degenerate_config_no_error_witness :
    bottom_up_explicit ({ terminals := [], nums := [2, 3, 4] } : StringLanguage) () ['a'] 5 = none
    ∧ bottom_up_explicit ({ terminals := ['a', 'b', 'c'], nums := [] } : StringLanguage) () ['a'] 6
      = some (StringTree.terminal 'a') :=
  degenerate_config_no_error () ['a'] 5 { terminals := [], nums := [2, 3, 4] } rfl

/-- C9 counterexample: for target `"b"` the driver does return the bare
terminal node for `'b'` on its first check, but only after performing one
Generator (`grow`) step: the instrumented driver reports round count 1,
never 0, because the loop expands the frontier before its first check. -/
theorem single_symbol_rounds_counterexample :
    bottom_up_rounds StringLanguage.init () ['b'] 1 = some (StringTree.terminal 'b', 1)
    ∧ bottom_up_rounds StringLanguage.init () ['b'] 1 ≠ some (StringTree.terminal 'b', 0) := by
  decide

/-- C9 (amended): for a target equal to a single alphabet symbol, the
driver returns the bare terminal node for that symbol in the very first
round (any fuel ≥ 1) — but exactly one Generator step is performed before
the match is found, since each round expands and collapses the frontier
before its check. -/
theorem single_symbol_first_round {α : Type} (inputs : α) (n : Nat) :
    bottom_up_explicit StringLanguage.init inputs ['b'] (n + 1) = some (StringTree.terminal 'b')
    ∧ bottom_up_rounds StringLanguage.init inputs ['b'] (n + 1)
      = some (StringTree.terminal 'b', 1) := by
  constructor
  · have h1 : bottomUpLoop StringLanguage.init () ['b'] 1 StringLanguage.init.initial
        = some (StringTree.terminal 'b') := by decide
    have h2 := bottomUpLoop_mono StringLanguage.init () ['b'] (StringTree.terminal 'b') 1 n _ h1
    rw [Nat.add_comm 1 n] at h2
    exact (bottomUpLoop_inputs StringLanguage.init inputs () ['b'] (n + 1) _).trans h2
  · have h1 : bottomUpLoopRounds StringLanguage.init () ['b'] 1 StringLanguage.init.initial 0
        = some (StringTree.terminal 'b', 1) := by decide
    have h2 := bottomUpLoopRounds_mono StringLanguage.init () ['b'] (StringTree.terminal 'b', 1)
      1 n 0 _ h1
    rw [Nat.add_comm 1 n] at h2
    exact (bottomUpLoopRounds_inputs StringLanguage.init inputs () ['b'] (n + 1) _ 0).trans h2

/-- C4: one Generator step decomposes blockwise over the input in its given
order: each occurrence of a program `p` contributes `p` itself first, then
exactly one `repeat` node per count in count order, then exactly one
`group` node per alphabet symbol in alphabet order; hence every program of
the input is still present, and each occurrence gains `|nums|` repeat
expansions and `|terminals|` group expansions; the source configuration
fixes the orders to counts `[2, 3, 4]` and alphabet `a, b, c`. -/
theorem grow_structure (L : StringLanguage) (l1 l2 : List StringTree) (p : StringTree) :
    L.grow (l1 ++ p :: l2)
      = L.grow l1
        ++ (p :: (L.nums.map (fun n => StringTree.«repeat» n p)
             ++ L.terminals.map (fun t => StringTree.group t p)))
        ++ L.grow l2
    ∧ (∀ q ∈ l1 ++ p :: l2, q ∈ L.grow (l1 ++ p :: l2))
    ∧ (L.nums.map (fun n => StringTree.«repeat» n p)).length = L.nums.length
    ∧ (L.terminals.map (fun t => StringTree.group t p)).length = L.terminals.length
    ∧ StringLanguage.init.nums = [2, 3, 4]
    ∧ StringLanguage.init.terminals = ['a', 'b', 'c'] := by
  refine ⟨?_, ?_, by simp, by simp, rfl, rfl⟩
  · simp [StringLanguage.grow, StringLanguage.rules, StringLanguage.«repeat»,
      StringLanguage.group, List.flatMap_append, List.flatMap_cons]
  · intro q hq
    exact List.mem_flatMap_of_mem hq (List.mem_cons_self _ _)
